import Mathlib

/-!
Verification of the differential-phase processing module (`wradlib/dp.py`).

The module works on numpy arrays of floating-point samples whose last axis
is the range dimension; NaN is the "no data" sentinel.  We embed a beam
(one slice along the range axis) as a `List V` where `V := Option ℚ`:
`none` plays the role of NaN and arithmetic propagates `none` the way IEEE
arithmetic propagates NaN.  Comparisons with a NaN operand are false, as
in IEEE.  All divisions performed by the embedded code have a nonzero
divisor at their use sites, so exact rational division is a faithful
model.
-/

/-- A radar sample: `none` models numpy's NaN ("no data"). -/
abbrev V : Type := Option ℚ

namespace DP

/-- `np.isnan` for a single sample. -/
def isnan (x : V) : Bool := x.isNone

/-- NaN-propagating addition. -/
def vadd (a b : V) : V :=
  match a, b with
  | some a, some b => some (a + b)
  | _, _ => none

/-- NaN-propagating subtraction. -/
def vsub (a b : V) : V :=
  match a, b with
  | some a, some b => some (a - b)
  | _, _ => none

/-- NaN-propagating multiplication. -/
def vmul (a b : V) : V :=
  match a, b with
  | some a, some b => some (a * b)
  | _, _ => none

/-- NaN-propagating division.  Every division performed by the source has
a nonzero divisor at its use site (window lengths, `2*L`, valid-neighbor
counts guarded by an explicit zero test), so the `ℚ`-division default is
never exercised on a zero divisor. -/
def vdiv (a b : V) : V :=
  match a, b with
  | some a, some b => some (a / b)
  | _, _ => none

/-- Strict `<` on samples; false when either operand is NaN (IEEE). -/
def vltB (a b : V) : Bool :=
  match a, b with
  | some a, some b => decide (a < b)
  | _, _ => false

/-- `np.mean([x, y])` of a two-element list. -/
def vavg (a b : V) : V := vdiv (vadd a b) (some 2)

@[simp] theorem vadd_some (a b : ℚ) : vadd (some a) (some b) = some (a + b) := rfl

@[simp] theorem vsub_some (a b : ℚ) : vsub (some a) (some b) = some (a - b) := rfl

@[simp] theorem vmul_some (a b : ℚ) : vmul (some a) (some b) = some (a * b) := rfl

@[simp] theorem vdiv_some (a b : ℚ) : vdiv (some a) (some b) = some (a / b) := rfl

@[simp] theorem vavg_some (a b : ℚ) : vavg (some a) (some b) = some ((a + b) / 2) := rfl

/-- numpy slice `d[a:b]`, clamped at both ends like numpy basic slicing. -/
def npSlice {α : Type} (d : List α) (a b : ℕ) : List α := (d.drop a).take (b - a)

/-- `np.mean` over a window: NaN if the window is empty or contains NaN. -/
def vmean (l : List V) : V :=
  if l.isEmpty || l.any isnan then none
  else some ((l.filterMap id).sum / l.length)

/-- `kdp_from_phidp` (dp.py lines 160-166): allocate a zero array of the
input's shape, then for `r` in `range(L/2, n - L/2)` (python integer
division) overwrite gate `r` with the centered difference
`(phidp[r+L/2] - phidp[r-L/2]) / (2*L)`.  Gates never written keep the
`np.zeros` initial value. -/
def kdp_from_phidp (L : ℕ) (phidp : List V) : List V :=
  (List.range' (L / 2) (phidp.length - L / 2 - L / 2)).foldl
    (fun kdp r =>
      kdp.set r
        (vdiv (vsub (phidp.getD (r + L / 2) none) (phidp.getD (r - L / 2) none))
          (some (2 * (L : ℚ)))))
    (List.replicate phidp.length (some 0))

/-- The linear-ramp input of the spec's reference scenario:
`phidp[r] = a*r + b` with `r = 0..99`, `a = 2`, `b = 10`. -/
def dpRamp : List V := (List.range 100).map (fun r : ℕ => some (2 * (r : ℚ) + 10))

theorem length_foldl_set (f : ℕ → V) (l : List ℕ) (a : List V) :
    (l.foldl (fun acc r => acc.set r (f r)) a).length = a.length := by
  induction l generalizing a with
  | nil => rfl
  | cons r t ih => simp [List.foldl_cons, ih]

theorem getD_foldl_set (f : ℕ → V) (l : List ℕ) (a : List V) (x : ℕ) :
    (l.foldl (fun acc r => acc.set r (f r)) a).getD x none =
      if x ∈ l ∧ x < a.length then f x else a.getD x none := by
  induction l generalizing a with
  | nil => simp
  | cons r t ih =>
      simp only [List.foldl_cons]
      rw [ih]
      by_cases hlen : x < a.length
      · have hlen' : x < (a.set r (f r)).length := by
          rw [List.length_set]
          exact hlen
        by_cases hx : x ∈ t
        · rw [if_pos ⟨hx, hlen'⟩, if_pos ⟨List.mem_cons_of_mem r hx, hlen⟩]
        · rw [if_neg (fun h => hx h.1)]
          by_cases hxr : x = r
          · subst hxr
            rw [if_pos ⟨List.mem_cons_self x t, hlen⟩]
            rw [List.getD_eq_getElem?_getD, List.getElem?_set_self hlen]
            rfl
          · rw [List.getD_eq_getElem?_getD, List.getElem?_set_ne (fun h => hxr h.symm),
              ← List.getD_eq_getElem?_getD]
            rw [if_neg (fun h => (List.mem_cons.mp h.1).elim hxr hx)]
      · rw [if_neg (fun h => hlen (by simpa using h.2)), if_neg (fun h => hlen h.2)]
        rw [List.getD_eq_getElem?_getD, List.getD_eq_getElem?_getD,
          List.getElem?_eq_none (by rw [List.length_set]; exact Nat.le_of_not_lt hlen),
          List.getElem?_eq_none (Nat.le_of_not_lt hlen)]

theorem kdp_from_phidp_length (L : ℕ) (phidp : List V) :
    (kdp_from_phidp L phidp).length = phidp.length := by
  unfold kdp_from_phidp
  rw [length_foldl_set]
  exact List.length_replicate ..

/-- Closed form of `kdp_from_phidp` at a single gate. -/
theorem kdp_from_phidp_getD (L : ℕ) (phidp : List V) (r : ℕ) :
    (kdp_from_phidp L phidp).getD r none =
      if L / 2 ≤ r ∧ r < phidp.length - L / 2 then
        vdiv (vsub (phidp.getD (r + L / 2) none) (phidp.getD (r - L / 2) none))
          (some (2 * (L : ℚ)))
      else if r < phidp.length then some 0 else none := by
  unfold kdp_from_phidp
  rw [getD_foldl_set]
  have hmem : r ∈ List.range' (L / 2) (phidp.length - L / 2 - L / 2) ↔
      L / 2 ≤ r ∧ r < phidp.length - L / 2 := by
    rw [List.mem_range'_1]
    omega
  by_cases h : L / 2 ≤ r ∧ r < phidp.length - L / 2
  · rw [if_pos ⟨hmem.mpr h, by rw [List.length_replicate]; omega⟩, if_pos h]
  · rw [if_neg (fun hc => h (hmem.mp hc.1)), if_neg h]
    rw [List.getD_eq_getElem?_getD, List.getElem?_replicate]
    by_cases hr : r < phidp.length
    · rw [if_pos hr, if_pos hr]
      rfl
    · rw [if_neg hr, if_neg hr]
      rfl

/-- C2: for every input beam and every odd window length `L`,
`kdp_from_phidp` returns an array of the same shape, whose value at each
interior gate `r` with `L/2 ≤ r < n - L/2` (integer division) is
`(phidp[r+L/2] - phidp[r-L/2]) / (2*L)`, and whose value at every gate
within `L/2` of either end is exactly zero. -/
theorem C2_kdp_window_derivative (phidp : List V) (L : ℕ) (hL : Odd L) :
    (kdp_from_phidp L phidp).length = phidp.length ∧
    ∀ r, r < phidp.length →
      (L / 2 ≤ r ∧ r < phidp.length - L / 2 →
        (kdp_from_phidp L phidp).getD r none =
          vdiv (vsub (phidp.getD (r + L / 2) none) (phidp.getD (r - L / 2) none))
            (some (2 * (L : ℚ)))) ∧
      ((r < L / 2 ∨ phidp.length - L / 2 ≤ r) →
        (kdp_from_phidp L phidp).getD r none = some 0) := by
  clear hL
  refine ⟨kdp_from_phidp_length L phidp, fun r hr => ⟨fun hint => ?_, fun hedge => ?_⟩⟩
  · rw [kdp_from_phidp_getD, if_pos hint]
  · rw [kdp_from_phidp_getD, if_neg (by omega), if_pos hr]

theorem C2_kdp_window_derivative_witness :
    (kdp_from_phidp 3 [some 1, some 2, some 4, some 8, some 16]).getD 2 none = some 1 ∧
    (kdp_from_phidp 3 [some 1, some 2, some 4, some 8, some 16]).getD 0 none = some 0 := by
  have h := C2_kdp_window_derivative [some 1, some 2, some 4, some 8, some 16] 3 ⟨1, by norm_num⟩
  refine ⟨?_, (h.2 0 (by decide)).2 (Or.inl (by decide))⟩
  have h2 := (h.2 2 (by decide)).1 (by decide)
  rw [h2]
  norm_num [List.getD]

theorem dpRamp_length : dpRamp.length = 100 := by
  unfold dpRamp
  rw [List.length_map, List.length_range]

theorem dpRamp_getD (r : ℕ) (hr : r < 100) :
    dpRamp.getD r none = some (2 * (r : ℚ) + 10) := by
  unfold dpRamp
  rw [List.getD_eq_getElem?_getD, List.getElem?_map, List.getElem?_range hr]
  rfl

/-- C1 fails on the code: on the linear ramp `phidp[r] = 2r + 10` with
`L = 7`, the interior value is `(phidp[r+3] - phidp[r-3]) / 14 = 12/14 =
6/7`, not `a/2 = 1`; and the interior region is `3 ≤ r < 97`, so gate 3
("edge gate" according to the claim's interval `7 ≤ r < 93`) holds `6/7`,
not `0`. -/
theorem C1_counterexample :
    (kdp_from_phidp 7 dpRamp).getD 10 none ≠ some 1 ∧
    (kdp_from_phidp 7 dpRamp).getD 3 none ≠ some 0 := by
  constructor
  · rw [kdp_from_phidp_getD, dpRamp_length,
      if_pos (by omega : 7 / 2 ≤ 10 ∧ 10 < 100 - 7 / 2),
      dpRamp_getD (10 + 7 / 2) (by omega), dpRamp_getD (10 - 7 / 2) (by omega)]
    norm_num
  · rw [kdp_from_phidp_getD, dpRamp_length,
      if_pos (by omega : 7 / 2 ≤ 3 ∧ 3 < 100 - 7 / 2),
      dpRamp_getD (3 + 7 / 2) (by omega), dpRamp_getD (3 - 7 / 2) (by omega)]
    norm_num

/-- C1 amended: on the ramp `phidp[r] = 2r + 10` (`r = 0..99`),
`kdp_from_phidp` with `L = 7` yields the constant `6/7` (that is,
`a*(L-1)/(2L)`) at every interior gate `3 ≤ r < 97`, and `0` at every
gate outside that interval. -/
theorem C1_kdp_ramp_amended (r : ℕ) (hr : r < 100) :
    (3 ≤ r ∧ r < 97 → (kdp_from_phidp 7 dpRamp).getD r none = some (6 / 7)) ∧
    ((r < 3 ∨ 97 ≤ r) → (kdp_from_phidp 7 dpRamp).getD r none = some 0) := by
  constructor
  · rintro ⟨hi1, hi2⟩
    rw [kdp_from_phidp_getD, dpRamp_length, if_pos (by omega),
      dpRamp_getD (r + 7 / 2) (by omega), dpRamp_getD (r - 7 / 2) (by omega)]
    have h1 : ((r + 7 / 2 : ℕ) : ℚ) = (r : ℚ) + 3 := by
      push_cast
      norm_num
    have h2 : ((r - 7 / 2 : ℕ) : ℚ) = (r : ℚ) - 3 := by
      rw [Nat.cast_sub (by omega : 7 / 2 ≤ r)]
      norm_num
    rw [vsub_some, vdiv_some, h1, h2]
    have h3 : 2 * ((r : ℚ) + 3) + 10 - (2 * ((r : ℚ) - 3) + 10) = 12 := by ring
    rw [h3]
    norm_num
  · intro hedge
    rw [kdp_from_phidp_getD, dpRamp_length, if_neg (by omega), if_pos hr]

theorem C1_kdp_ramp_amended_witness :
    (kdp_from_phidp 7 dpRamp).getD 50 none = some (6 / 7) ∧
    (kdp_from_phidp 7 dpRamp).getD 1 none = some 0 :=
  ⟨(C1_kdp_ramp_amended 50 (by norm_num)).1 (by norm_num),
   (C1_kdp_ramp_amended 1 (by norm_num)).2 (Or.inl (by norm_num))⟩

/-- The window step of `linear_despeckle` (dp.py lines 339-353): build
the validity indicator `arr` (1 where valid, 0 where NaN), roll it by
`±1` (and `±2` for `N = 5`) along the range axis — numpy `roll` wraps
around the beam ends — sum the rolls into `test`, and invalidate every
valid gate whose `test` count falls below the threshold (2 for `N = 3`,
3 for `N = 5`).  The source asserts `N ∈ {3, 5}`; any other `N` raises,
so claims about this function assume `N ∈ {3, 5}`. -/
def despeckle_window (N : ℕ) (data : List V) : List V :=
  let n := data.length
  let arr : ℕ → ℕ := fun r => if (data.getD r none).isNone then 0 else 1
  let test : ℕ → ℕ :=
    if N = 3 then fun r => arr ((r + (n - 1)) % n) + arr r + arr ((r + 1) % n)
    else fun r =>
      arr ((r + (n - 1)) % n) + arr r + arr ((r + 1) % n) +
        arr ((r + (n - 2)) % n) + arr ((r + 2) % n)
  let thresh : ℕ := if N = 3 then 2 else 3
  data.mapIdx (fun r x => if x.isNone = false ∧ test r < thresh then none else x)

/-- `linear_despeckle` (dp.py lines 319-356): the window step followed by
the first-gate rule of lines 354-355.  The boolean-mask assignment
`data[np.isnan(np.take(data, xrange(1,2), ...))] = np.nan` indexes by
the nonzero positions of the shape-`(...,1)` mask, i.e. it sets gate 0
to NaN in every beam whose (already despeckled) gate 1 is NaN.  The
source indexes gate 1 unconditionally and raises for beams of fewer
than 2 gates, so the claims assume at least 2 gates. -/
def linear_despeckle (N : ℕ) (data : List V) : List V :=
  let step := despeckle_window N data
  if (step.getD 1 (some 0)).isNone then step.set 0 none else step

theorem despeckle_window_length (N : ℕ) (data : List V) :
    (despeckle_window N data).length = data.length := by
  unfold despeckle_window
  exact List.length_mapIdx

theorem linear_despeckle_length (N : ℕ) (data : List V) :
    (linear_despeckle N data).length = data.length := by
  unfold linear_despeckle
  by_cases h : ((despeckle_window N data).getD 1 (some 0)).isNone
  · simp only [h, if_true, List.length_set]
    exact despeckle_window_length N data
  · simp only [h, if_false]
    exact despeckle_window_length N data

/-- On a NaN-free beam every window count reaches the full window size,
so the window step never invalidates a gate. -/
theorem despeckle_window_noNaN_id (N : ℕ) (data : List V)
    (hvalid : ∀ x ∈ data, x ≠ none) : despeckle_window N data = data := by
  unfold despeckle_window
  apply List.ext_getElem?
  intro i
  rw [List.getElem?_mapIdx]
  cases hi : data[i]? with
  | none => rfl
  | some x =>
      have hx : x ∈ data := List.getElem?_mem hi
      have harr : ∀ r, r < data.length →
          (if (data.getD r none).isNone then 0 else 1) = 1 := by
        intro r hr
        rw [List.getD_eq_getElem?_getD, List.getElem?_eq_getElem hr]
        have := hvalid data[r] (List.getElem_mem hr)
        simp only [Option.getD_some]
        cases hd : data[r] with
        | none => exact absurd hd this
        | some y => rfl
      have hilen : i < data.length := by
        by_contra hc
        rw [List.getElem?_eq_none (Nat.le_of_not_lt hc)] at hi
        exact Option.noConfusion hi
      have hnz : 0 < data.length := Nat.lt_of_le_of_lt (Nat.zero_le i) hilen
      have hmod : ∀ k : ℕ, (i + k) % data.length < data.length := fun k =>
        Nat.mod_lt _ hnz
      simp only [Option.map_some]
      by_cases hN : N = 3
      · simp only [hN, if_true]
        rw [harr _ (hmod (data.length - 1)), harr _ hilen, harr _ (hmod 1)]
        have hxv : x.isNone = false := by
          cases x with
          | none => exact absurd rfl (hvalid none hx)
          | some y => rfl
        simp [hxv]
      · simp only [hN, if_false]
        rw [harr _ (hmod (data.length - 1)), harr _ hilen, harr _ (hmod 1),
          harr _ (hmod (data.length - 2)), harr _ (hmod 2)]
        have hxv : x.isNone = false := by
          cases x with
          | none => exact absurd rfl (hvalid none hx)
          | some y => rfl
        simp [hxv]

/-- On a NaN-free beam `linear_despeckle` is the identity: the window
step changes nothing and gate 1 stays valid, so the first-gate rule does
not fire. -/
theorem linear_despeckle_noNaN_id (N : ℕ) (data : List V)
    (hvalid : ∀ x ∈ data, x ≠ none) : linear_despeckle N data = data := by
  unfold linear_despeckle
  rw [despeckle_window_noNaN_id N data hvalid]
  cases hd : data.getD 1 (some 0) with
  | none =>
      exfalso
      rw [List.getD_eq_getElem?_getD] at hd
      cases h1 : data[1]? with
      | none => rw [h1] at hd; exact Option.noConfusion hd
      | some y =>
          rw [h1] at hd
          simp only [Option.getD_some] at hd
          exact hvalid y (List.getElem?_mem h1) hd
  | some q => rw [if_neg (by rw [hd]; simp)]

/-- C5 fails on the code: despeckling can cascade.  On the beam
`[1, NaN, 1, NaN, 1]` with `N = 3`, the first application removes the
lone middle survivor (window count 1) and then blanks gate 0 by the
first-gate rule, leaving `[NaN, NaN, NaN, NaN, 1]`; the second
application now finds gate 4 isolated (window count 1 with wraparound)
and removes it too, so applying despeckle twice differs from applying it
once. -/
theorem C5_counterexample :
    linear_despeckle 3 (linear_despeckle 3 [some 1, none, some 1, none, some 1]) ≠
      linear_despeckle 3 [some 1, none, some 1, none, some 1] := by decide

/-- C5 amended: despeckling is idempotent on NaN-free input (for both
window widths, and beams of at least 2 gates as the source requires):
there it is the identity, so a second application changes nothing.  On
inputs with NaNs a second application can invalidate further gates. -/
theorem C5_despeckle_idempotent_amended (N : ℕ) (hN : N = 3 ∨ N = 5)
    (data : List V) (hlen : 2 ≤ data.length) (hvalid : ∀ x ∈ data, x ≠ none) :
    linear_despeckle N (linear_despeckle N data) = linear_despeckle N data := by
  clear hN hlen
  rw [linear_despeckle_noNaN_id N data hvalid, linear_despeckle_noNaN_id N data hvalid]

theorem C5_despeckle_idempotent_amended_witness :
    linear_despeckle 3 (linear_despeckle 3 [some 1, some 2, some 3]) =
      linear_despeckle 3 [some 1, some 2, some 3] :=
  C5_despeckle_idempotent_amended 3 (Or.inl rfl) [some 1, some 2, some 3]
    (by norm_num) (by decide)

theorem despeckle_window_cons_cons (N : ℕ) (data : List V) :
    2 ≤ data.length → ∃ a b t, despeckle_window N data = a :: b :: t := by
  intro hlen
  have h2 : 2 ≤ (despeckle_window N data).length := by
    rw [despeckle_window_length]
    exact hlen
  have hne : despeckle_window N data ≠ [] := by
    intro h
    rw [h] at h2
    exact absurd h2 (by norm_num)
  obtain ⟨a, t1, h1⟩ := List.exists_cons_of_ne_nil hne
  have h3 : t1 ≠ [] := by
    intro h
    rw [h1, h] at h2
    simp at h2
  obtain ⟨b, t, h4⟩ := List.exists_cons_of_ne_nil h3
  exact ⟨a, b, t, by rw [h1, h4]⟩

/-- C10: the first-gate rule of `linear_despeckle` (dp.py lines
354-355).  After despeckling, gate 0 is NaN whenever gate 1 is NaN in
the output; gate 0's final value is determined from the window step
solely by gate 1's validity (NaN if gate 1 is NaN, otherwise gate 0's
own window-step value, regardless of gate 0's window count); and every
gate other than 0 keeps exactly its window-step value. -/
theorem C10_first_gate_rule (N : ℕ) (hN : N = 3 ∨ N = 5) (data : List V)
    (hlen : 2 ≤ data.length) :
    ((linear_despeckle N data).getD 1 none = none →
      (linear_despeckle N data).getD 0 none = none) ∧
    (linear_despeckle N data).drop 1 = (despeckle_window N data).drop 1 ∧
    (linear_despeckle N data).getD 0 none =
      (if (despeckle_window N data).getD 1 none = none then none
       else (despeckle_window N data).getD 0 none) := by
  clear hN
  obtain ⟨a, b, t, hab⟩ := despeckle_window_cons_cons N data hlen
  have hld : linear_despeckle N data =
      if b.isNone then none :: b :: t else a :: b :: t := by
    unfold linear_despeckle
    rw [hab]
    rfl
  rw [hld, hab]
  cases b with
  | none => exact ⟨fun _ => rfl, rfl, rfl⟩
  | some q =>
      refine ⟨fun h => absurd h (by simp [List.getD]), ?_, ?_⟩
      · simp [Option.isNone]
      · simp [Option.isNone, List.getD]

/-- Pair up consecutive elements: numpy's `reshape(-1, 2)` of the
boundary index list (which always has even length). -/
def chunkPairs : List ℕ → List (ℕ × ℕ)
  | a :: b :: t => (a, b) :: chunkPairs t
  | _ => []

/-- Interior change points of `contiguous_regions` (dp.py lines
529-534): the nonzero positions of `np.diff(condition)`, shifted right
by one. -/
def midB (l : List Bool) : List ℕ :=
  ((List.range (l.length - 1)).filter
      (fun r => l.getD (r + 1) false != l.getD r false)).map (fun r => r + 1)

/-- Leading boundary (dp.py lines 536-538): prepend 0 when
`condition[0]` is True. -/
def headB (l : List Bool) : List ℕ := if l.getD 0 false then [0] else []

/-- Trailing boundary (dp.py lines 540-542): append the array length
when `condition[-1]` is True. -/
def lastB (l : List Bool) : List ℕ :=
  if l.getD (l.length - 1) false then [l.length] else []

/-- `contiguous_regions` (dp.py lines 511-546): assemble the boundary
index list and reshape it into `[start, end)` pairs.  The source
indexes `condition[0]` and `condition[-1]` and raises on an empty
input, so the claims assume a nonempty sequence. -/
def contiguous_regions (l : List Bool) : List (ℕ × ℕ) :=
  chunkPairs (headB l ++ midB l ++ lastB l)

/-- Shift every run one gate to the right. -/
def shiftRuns (rs : List (ℕ × ℕ)) : List (ℕ × ℕ) := rs.map (fun p => (p.1 + 1, p.2 + 1))

/-- Reference enumeration of the maximal True runs by structural
recursion; proved equal to `contiguous_regions` and correct against
`isMaxRun` below. -/
def trueRuns : List Bool → List (ℕ × ℕ)
  | [] => []
  | false :: l => shiftRuns (trueRuns l)
  | true :: l =>
      if l.getD 0 false then
        match trueRuns l with
        | (_, e) :: rest => (0, e + 1) :: shiftRuns rest
        | [] => [(0, 1)]
      else (0, 1) :: shiftRuns (trueRuns l)

/-- The claim's specification of a maximal True run `[s, e)`: nonempty,
within bounds, all True, and not extendable on either side. -/
def isMaxRun (l : List Bool) (s e : ℕ) : Prop :=
  s < e ∧ e ≤ l.length ∧
    ((List.range' s (e - s)).all (fun r => l.getD r false)) = true ∧
    (s = 0 ∨ l.getD (s - 1) false = false) ∧
    (e = l.length ∨ l.getD e false = false)

instance (l : List Bool) (s e : ℕ) : Decidable (isMaxRun l s e) := by
  unfold isMaxRun
  infer_instance

/-- `isMaxRun` unfolded to a pointwise description of the gates. -/
theorem isMaxRun_def (l : List Bool) (s e : ℕ) :
    isMaxRun l s e ↔
      s < e ∧ e ≤ l.length ∧ (∀ r, s ≤ r → r < e → l.getD r false = true) ∧
        (s = 0 ∨ l.getD (s - 1) false = false) ∧
        (e = l.length ∨ l.getD e false = false) := by
  unfold isMaxRun
  refine and_congr_right fun hse => and_congr_right fun he => and_congr_left fun _ => ?_
  rw [List.all_eq_true]
  constructor
  · intro h r h1 h2
    exact h r (List.mem_range'_1.mpr ⟨h1, by omega⟩)
  · intro h r hr
    obtain ⟨h1, h2⟩ := List.mem_range'_1.mp hr
    exact h r h1 (by omega)

theorem chunkPairs_map_succ : ∀ B : List ℕ,
    chunkPairs (B.map (fun y => y + 1)) = shiftRuns (chunkPairs B)
  | [] => rfl
  | [_] => rfl
  | a :: b :: t => by
      simp only [List.map_cons, chunkPairs, shiftRuns, List.map_cons]
      rw [chunkPairs_map_succ t]
      rfl

theorem midB_cons (x : Bool) (l : List Bool) (hl : l ≠ []) :
    midB (x :: l) =
      (if l.getD 0 false != x then [1] else []) ++ (midB l).map (fun y => y + 1) := by
  obtain ⟨m, hm⟩ : ∃ m, l.length = m + 1 := by
    cases l with
    | nil => exact absurd rfl hl
    | cons a t => exact ⟨t.length, rfl⟩
  unfold midB
  simp only [List.length_cons, Nat.add_sub_cancel, hm]
  rw [List.range_succ_eq_map, List.filter_cons]
  have hp0 : ((x :: l).getD (0 + 1) false != (x :: l).getD 0 false) =
      (l.getD 0 false != x) := by
    rw [List.getD_cons_succ, List.getD_cons_zero]
  rw [List.filter_map]
  have hcomp :
      ((List.range m).filter
          ((fun r => (x :: l).getD (r + 1) false != (x :: l).getD r false) ∘ Nat.succ)) =
        ((List.range m).filter (fun r => l.getD (r + 1) false != l.getD r false)) := by
    apply List.filter_congr
    intro r _
    simp only [Function.comp_apply, Nat.succ_eq_add_one]
    rw [List.getD_cons_succ, List.getD_cons_succ]
  rw [hcomp, hp0]
  by_cases h0 : l.getD 0 false = x
  · have hb : (l.getD 0 false != x) = false := by rw [h0]; simp
    rw [hb, if_neg Bool.false_ne_true, if_neg Bool.false_ne_true]
    simp [List.map_map, Function.comp_def, Nat.succ_eq_add_one]
  · have hb : (l.getD 0 false != x) = true := by
      revert h0
      cases l.getD 0 false <;> cases x <;> simp
    rw [hb, if_pos rfl, if_pos rfl]
    simp [List.map_map, Function.comp_def, Nat.succ_eq_add_one]

theorem lastB_cons (x : Bool) (l : List Bool) (hl : l ≠ []) :
    lastB (x :: l) = (lastB l).map (fun y => y + 1) := by
  obtain ⟨m, hm⟩ : ∃ m, l.length = m + 1 := by
    cases l with
    | nil => exact absurd rfl hl
    | cons a t => exact ⟨t.length, rfl⟩
  unfold lastB
  simp only [List.length_cons, hm, Nat.add_sub_cancel]
  rw [List.getD_cons_succ]
  by_cases h : l.getD m false
  · rw [if_pos h, if_pos h]
    rfl
  · rw [if_neg h, if_neg h]
    rfl

theorem headB_cons (x : Bool) (l : List Bool) :
    headB (x :: l) = if x then [0] else [] := by
  unfold headB
  rw [List.getD_cons_zero]

/-- A sequence that starts True and ends False must change somewhere. -/
theorem exists_change (l : List Bool) (h0 : l.getD 0 false = true)
    (h1 : l.getD (l.length - 1) false = false) :
    ∃ r, r < l.length - 1 ∧ (l.getD (r + 1) false != l.getD r false) = true := by
  by_contra hc
  push_neg at hc
  have hconst : ∀ r, r < l.length → l.getD r false = l.getD 0 false := by
    intro r
    induction r with
    | zero => intro _; rfl
    | succ k ih =>
        intro hk
        have hk' : k < l.length - 1 := by omega
        have := hc k hk'
        simp only [bne_iff_ne, ne_eq, not_not] at this
        rw [this, ih (by omega)]
  have hlen : 0 < l.length := by
    by_contra hz
    have : l.length = 0 := by omega
    have : l = [] := List.length_eq_zero.mp this
    rw [this] at h0
    simp [List.getD] at h0
  have := hconst (l.length - 1) (by omega)
  rw [h1, h0] at this
  exact Bool.noConfusion this

theorem midB_ne_nil (l : List Bool) (h0 : l.getD 0 false = true)
    (h1 : l.getD (l.length - 1) false = false) : midB l ≠ [] := by
  obtain ⟨r, hr, hch⟩ := exists_change l h0 h1
  unfold midB
  intro hc
  have : r ∈ (List.range (l.length - 1)).filter
      (fun r => l.getD (r + 1) false != l.getD r false) := by
    rw [List.mem_filter, List.mem_range]
    exact ⟨hr, hch⟩
  rw [List.eq_nil_iff_forall_not_mem] at hc
  exact hc (r + 1) (List.mem_map.mpr ⟨r, this, rfl⟩)

/-- When the sequence starts True, its boundary list starts with 0 and
has at least one further entry. -/
theorem boundaries_head_true (l : List Bool) (h0 : l.getD 0 false = true) :
    ∃ e t, headB l ++ midB l ++ lastB l = 0 :: e :: t := by
  rw [show headB l = [0] by unfold headB; rw [h0]; rfl]
  by_cases h1 : l.getD (l.length - 1) false = true
  · rcases hmid : midB l with _ | ⟨e, t⟩
    · exact ⟨l.length, [], by rw [show lastB l = [l.length] by unfold lastB; rw [h1]; rfl]; rfl⟩
    · exact ⟨e, t ++ lastB l, by simp⟩
  · have hne := midB_ne_nil l h0 (Bool.eq_false_iff.mpr (fun h => h1 h))
    rcases hmid : midB l with _ | ⟨e, t⟩
    · exact absurd hmid hne
    · exact ⟨e, t ++ lastB l, by simp⟩

/-- When the sequence starts True, `trueRuns` starts with a run based at
gate 0. -/
theorem trueRuns_head_true (l : List Bool) (h0 : l.getD 0 false = true) :
    ∃ e rest, trueRuns l = (0, e) :: rest := by
  cases l with
  | nil => simp [List.getD] at h0
  | cons x t =>
      rw [List.getD_cons_zero] at h0
      subst h0
      rw [trueRuns]
      by_cases ht : t.getD 0 false
      · rw [if_pos ht]
        rcases htr : trueRuns t with _ | ⟨⟨s1, e1⟩, rest1⟩
        · exact ⟨1, [], rfl⟩
        · exact ⟨e1 + 1, shiftRuns rest1, rfl⟩
      · rw [if_neg ht]
        exact ⟨1, shiftRuns (trueRuns t), rfl⟩

theorem trueRuns_cons_false (l : List Bool) :
    trueRuns (false :: l) = shiftRuns (trueRuns l) := by
  rw [trueRuns]

theorem trueRuns_cons_true_head (l : List Bool) (e0 : ℕ) (rest0 : List (ℕ × ℕ))
    (h0 : l.getD 0 false = true) (htr : trueRuns l = (0, e0) :: rest0) :
    trueRuns (true :: l) = (0, e0 + 1) :: shiftRuns rest0 := by
  rw [trueRuns, if_pos h0, htr]

theorem trueRuns_cons_true_nohead (l : List Bool) (h0 : l.getD 0 false = false) :
    trueRuns (true :: l) = (0, 1) :: shiftRuns (trueRuns l) := by
  rw [trueRuns, if_neg (by rw [h0]; exact Bool.false_ne_true)]

/-- The index-arithmetic boundary construction of the source computes
exactly the recursive maximal-run enumeration. -/
theorem contiguous_regions_eq_trueRuns (l : List Bool) :
    contiguous_regions l = trueRuns l := by
  induction l with
  | nil => rfl
  | cons x l ih =>
      rcases hl : l with _ | ⟨y, t⟩
      · cases x <;> rfl
      · rw [← hl]
        have hlne : l ≠ [] := by rw [hl]; exact List.cons_ne_nil y t
        unfold contiguous_regions at ih ⊢
        rw [midB_cons x l hlne, lastB_cons x l hlne, headB_cons x l]
        cases x with
        | false =>
            rw [if_neg Bool.false_ne_true, Bool.bne_false, trueRuns_cons_false, ← ih,
              ← chunkPairs_map_succ]
            by_cases h0 : l.getD 0 false
            · rw [if_pos h0]
              have hhB : headB l = [0] := by unfold headB; rw [if_pos h0]
              congr 1
              rw [hhB]
              simp
            · rw [if_neg h0]
              have hhB : headB l = [] := by
                unfold headB
                rw [if_neg h0]
              congr 1
              rw [hhB]
              simp
        | true =>
            rw [if_pos rfl]
            by_cases h0 : l.getD 0 false
            · have hb1 : (l.getD 0 false != true) = false := by rw [h0]; rfl
              rw [hb1, if_neg Bool.false_ne_true]
              obtain ⟨e, t2, hb⟩ := boundaries_head_true l h0
              obtain ⟨e0, rest0, htr⟩ := trueRuns_head_true l h0
              have hb0 : headB l = [0] := by unfold headB; rw [if_pos h0]
              have hchunk : ((0, e) : ℕ × ℕ) :: chunkPairs t2 = (0, e0) :: rest0 := by
                have h2 := ih
                rw [hb, htr] at h2
                rw [chunkPairs] at h2
                exact h2
              injection hchunk with hpair hrest
              injection hpair with hfst hsnd
              rw [trueRuns_cons_true_head l e0 rest0 h0 htr, ← hsnd, ← hrest]
              have hbparts : midB l ++ lastB l = e :: t2 := by
                have h3 := hb
                rw [hb0] at h3
                simpa using h3
              simp only [List.nil_append, List.singleton_append, List.cons_append]
              rw [← List.map_append, hbparts, List.map_cons, chunkPairs, chunkPairs_map_succ]
            · have hgf : l.getD 0 false = false := by
                revert h0
                cases l.getD 0 false <;> simp
              have hb1 : (l.getD 0 false != true) = true := by rw [hgf]; rfl
              rw [hb1, if_pos rfl]
              have hhB : headB l = [] := by unfold headB; rw [hgf]; rfl
              rw [trueRuns_cons_true_nohead l hgf, ← ih, ← chunkPairs_map_succ, hhB]
              simp only [List.nil_append, List.cons_append, List.singleton_append]
              rw [← List.map_append, chunkPairs]

theorem trueRuns_pos (l : List Bool) (h0 : l.getD 0 false = false) :
    ∀ p ∈ trueRuns l, 1 ≤ p.1 := by
  cases l with
  | nil => intro p hp; simp [trueRuns] at hp
  | cons x t =>
      cases x with
      | false =>
          rw [trueRuns_cons_false]
          intro p hp
          obtain ⟨q, _, hq⟩ := List.mem_map.mp hp
          rw [← hq]
          exact Nat.le_add_left 1 q.1
      | true =>
          rw [List.getD_cons_zero] at h0
          exact absurd h0 (by simp)

theorem mem_shiftRuns (rs : List (ℕ × ℕ)) (s e : ℕ) :
    (s, e) ∈ shiftRuns rs ↔ 1 ≤ s ∧ 1 ≤ e ∧ (s - 1, e - 1) ∈ rs := by
  unfold shiftRuns
  rw [List.mem_map]
  constructor
  · rintro ⟨⟨a, b⟩, hab, heq⟩
    cases heq
    exact ⟨by omega, by omega, by simpa using hab⟩
  · rintro ⟨h1, h2, h3⟩
    exact ⟨(s - 1, e - 1), h3, by
      simp only []
      rw [Nat.sub_add_cancel h1, Nat.sub_add_cancel h2]⟩

theorem isMaxRun_start_true (l : List Bool) (s e : ℕ) (h : isMaxRun l s e) :
    l.getD s false = true := by
  obtain ⟨h1, _, h3, _, _⟩ := (isMaxRun_def l s e).mp h
  exact h3 s le_rfl h1

/-- Shifting a run across a prepended gate. -/
theorem isMaxRun_cons_shift (x : Bool) (l : List Bool) (s' e' : ℕ) :
    isMaxRun (x :: l) (s' + 1) (e' + 1) ↔ isMaxRun l s' e' ∧ (s' = 0 → x = false) := by
  rw [isMaxRun_def, isMaxRun_def]
  simp only [List.length_cons, Nat.add_sub_cancel]
  constructor
  · rintro ⟨h1, h2, h3, h4, h5⟩
    refine ⟨⟨by omega, by omega, ?_, ?_, ?_⟩, ?_⟩
    · intro r hr1 hr2
      have := h3 (r + 1) (by omega) (by omega)
      rwa [List.getD_cons_succ] at this
    · rcases Nat.eq_zero_or_pos s' with hz | hpos
      · exact Or.inl hz
      · rcases h4 with h4 | h4
        · omega
        · right
          obtain ⟨s'', rfl⟩ : ∃ s'', s' = s'' + 1 := ⟨s' - 1, by omega⟩
          rw [List.getD_cons_succ] at h4
          simpa using h4
    · rcases h5 with h5 | h5
      · left; omega
      · right
        rwa [List.getD_cons_succ] at h5
    · intro hz
      subst hz
      rcases h4 with h4 | h4
      · omega
      · rwa [List.getD_cons_zero] at h4
  · rintro ⟨⟨h1, h2, h3, h4, h5⟩, h6⟩
    refine ⟨by omega, by omega, ?_, ?_, ?_⟩
    · intro r hr1 hr2
      obtain ⟨r', rfl⟩ : ∃ r', r = r' + 1 := ⟨r - 1, by omega⟩
      rw [List.getD_cons_succ]
      exact h3 r' (by omega) (by omega)
    · right
      rcases Nat.eq_zero_or_pos s' with hz | hpos
      · subst hz
        rw [List.getD_cons_zero]
        rw [h6 rfl]
      · obtain ⟨s'', rfl⟩ : ∃ s'', s' = s'' + 1 := ⟨s' - 1, by omega⟩
        rw [List.getD_cons_succ]
        rcases h4 with h4 | h4
        · omega
        · simpa using h4
    · rcases h5 with h5 | h5
      · left; omega
      · right
        rwa [List.getD_cons_succ]

/-- A singleton run at gate 0 of a nonempty sequence. -/
theorem isMaxRun_cons_zero_one (x : Bool) (t : List Bool) :
    isMaxRun (x :: t) 0 1 ↔ x = true ∧ t.getD 0 false = false := by
  rw [isMaxRun_def]
  simp only [List.length_cons]
  constructor
  · rintro ⟨h1, h2, h3, _, h5⟩
    refine ⟨by have := h3 0 le_rfl h1; rwa [List.getD_cons_zero] at this, ?_⟩
    rcases h5 with h5 | h5
    · have ht : t = [] := List.length_eq_zero.mp (by omega)
      rw [ht]
      rfl
    · rwa [List.getD_cons_succ] at h5
  · rintro ⟨hx, ht⟩
    refine ⟨by omega, by omega, ?_, Or.inl trivial, Or.inr (by rwa [List.getD_cons_succ])⟩
    intro r hr1 hr2
    have : r = 0 := by omega
    subst this
    rwa [List.getD_cons_zero]

/-- A run of length at least 2 based at gate 0. -/
theorem isMaxRun_cons_zero_succ (x : Bool) (t : List Bool) (e' : ℕ) (he : 1 ≤ e') :
    isMaxRun (x :: t) 0 (e' + 1) ↔ x = true ∧ isMaxRun t 0 e' := by
  rw [isMaxRun_def, isMaxRun_def]
  simp only [List.length_cons]
  constructor
  · rintro ⟨h1, h2, h3, _, h5⟩
    refine ⟨by have := h3 0 le_rfl h1; rwa [List.getD_cons_zero] at this,
      by omega, by omega, ?_, Or.inl trivial, ?_⟩
    · intro r hr1 hr2
      have := h3 (r + 1) (by omega) (by omega)
      rwa [List.getD_cons_succ] at this
    · rcases h5 with h5 | h5
      · left; omega
      · right
        rwa [List.getD_cons_succ] at h5
  · rintro ⟨hx, h1, h2, h3, _, h5⟩
    refine ⟨by omega, by omega, ?_, Or.inl trivial, ?_⟩
    · intro r hr1 hr2
      rcases Nat.eq_zero_or_pos r with hz | hpos
      · subst hz
        rwa [List.getD_cons_zero]
      · obtain ⟨r', rfl⟩ : ∃ r', r = r' + 1 := ⟨r - 1, by omega⟩
        rw [List.getD_cons_succ]
        exact h3 r' (by omega) (by omega)
    · rcases h5 with h5 | h5
      · left; omega
      · right
        rwa [List.getD_cons_succ]

theorem trueRuns_pairwise (l : List Bool) :
    (trueRuns l).Pairwise (fun p q => p.2 < q.1) := by
  induction l with
  | nil => exact List.Pairwise.nil
  | cons x t ih =>
      cases x with
      | false =>
          rw [trueRuns_cons_false]
          unfold shiftRuns
          rw [List.pairwise_map]
          exact ih.imp (fun h => by omega)
      | true =>
          by_cases h0 : t.getD 0 false
          · obtain ⟨e0, rest0, htr⟩ := trueRuns_head_true t h0
            rw [trueRuns_cons_true_head t e0 rest0 h0 htr]
            have hp := ih
            rw [htr] at hp
            rcases List.pairwise_cons.mp hp with ⟨hhead, hrest⟩
            refine List.pairwise_cons.mpr ⟨?_, ?_⟩
            · intro q' hq'
              obtain ⟨q, hq, rfl⟩ := List.mem_map.mp hq'
              have := hhead q hq
              simp only []
              omega
            · unfold shiftRuns
              rw [List.pairwise_map]
              exact hrest.imp (fun h => by omega)
          · have hgf : t.getD 0 false = false := by
              revert h0
              cases t.getD 0 false <;> simp
            rw [trueRuns_cons_true_nohead t hgf]
            refine List.pairwise_cons.mpr ⟨?_, ?_⟩
            · intro q' hq'
              obtain ⟨q, hq, rfl⟩ := List.mem_map.mp hq'
              have := trueRuns_pos t hgf q hq
              simp only []
              omega
            · unfold shiftRuns
              rw [List.pairwise_map]
              exact ih.imp (fun h => by omega)

theorem trueRuns_mem_iff (l : List Bool) (s e : ℕ) :
    (s, e) ∈ trueRuns l ↔ isMaxRun l s e := by
  induction l generalizing s e with
  | nil =>
      rw [show trueRuns [] = [] from rfl]
      constructor
      · intro h
        exact absurd h (List.not_mem_nil _)
      · intro h
        obtain ⟨h1, h2, _, _, _⟩ := (isMaxRun_def [] s e).mp h
        simp only [List.length_nil] at h2
        omega
  | cons x t ih =>
      cases x with
      | false =>
          rw [trueRuns_cons_false, mem_shiftRuns]
          constructor
          · rintro ⟨hs, he, hmem⟩
            obtain ⟨s', rfl⟩ : ∃ s', s = s' + 1 := ⟨s - 1, by omega⟩
            obtain ⟨e', rfl⟩ : ∃ e', e = e' + 1 := ⟨e - 1, by omega⟩
            simp only [Nat.add_sub_cancel] at hmem
            rw [isMaxRun_cons_shift]
            exact ⟨(ih _ _).mp hmem, fun _ => rfl⟩
          · intro h
            have hs1 : (false :: t).getD s false = true := isMaxRun_start_true _ _ _ h
            have hs : 1 ≤ s := by
              rcases Nat.eq_zero_or_pos s with hz | h1
              · subst hz
                rw [List.getD_cons_zero] at hs1
                exact absurd hs1 (by simp)
              · exact h1
            have he : 1 ≤ e := by
              have := ((isMaxRun_def _ s e).mp h).1
              omega
            obtain ⟨s', rfl⟩ : ∃ s', s = s' + 1 := ⟨s - 1, by omega⟩
            obtain ⟨e', rfl⟩ : ∃ e', e = e' + 1 := ⟨e - 1, by omega⟩
            rw [isMaxRun_cons_shift] at h
            refine ⟨by omega, by omega, ?_⟩
            simp only [Nat.add_sub_cancel]
            exact (ih _ _).mpr h.1
      | true =>
          have hebound : isMaxRun (true :: t) s e → 1 ≤ e := fun h => by
            have := ((isMaxRun_def _ s e).mp h).1
            omega
          by_cases h0 : t.getD 0 false
          · obtain ⟨e0, rest0, htr⟩ := trueRuns_head_true t h0
            have hrun0 : isMaxRun t 0 e0 := (ih 0 e0).mp (by rw [htr]; exact List.mem_cons_self _ _)
            have he0pos : 1 ≤ e0 := by
              have := ((isMaxRun_def t 0 e0).mp hrun0).1
              omega
            have hrest_pos : ∀ q ∈ rest0, 1 ≤ q.1 := by
              intro q hq
              have hp := trueRuns_pairwise t
              rw [htr] at hp
              have := (List.pairwise_cons.mp hp).1 q hq
              simp only [] at this
              omega
            rw [trueRuns_cons_true_head t e0 rest0 h0 htr]
            constructor
            · intro h
              rcases List.mem_cons.mp h with h | h
              · cases h
                rw [isMaxRun_cons_zero_succ true t e0 he0pos]
                exact ⟨rfl, hrun0⟩
              · rw [mem_shiftRuns] at h
                obtain ⟨hs, he, hmem⟩ := h
                obtain ⟨s', rfl⟩ : ∃ s', s = s' + 1 := ⟨s - 1, by omega⟩
                obtain ⟨e', rfl⟩ : ∃ e', e = e' + 1 := ⟨e - 1, by omega⟩
                simp only [Nat.add_sub_cancel] at hmem
                have hs'pos : 1 ≤ s' := hrest_pos _ hmem
                rw [isMaxRun_cons_shift]
                refine ⟨(ih _ _).mp ?_, fun hz => absurd hz (by omega)⟩
                rw [htr]
                exact List.mem_cons_of_mem _ hmem
            · intro h
              have he : 1 ≤ e := hebound h
              rcases Nat.eq_zero_or_pos s with hz | hspos
              · subst hz
                obtain ⟨e', rfl⟩ : ∃ e', e = e' + 1 := ⟨e - 1, by omega⟩
                rcases Nat.eq_zero_or_pos e' with hez | hepos
                · subst hez
                  rw [isMaxRun_cons_zero_one] at h
                  rw [h.2] at h0
                  exact absurd h0 (by simp)
                · rw [isMaxRun_cons_zero_succ true t e' hepos] at h
                  have := (ih 0 e').mpr h.2
                  rw [htr] at this
                  rcases List.mem_cons.mp this with hh | hh
                  · have : e' = e0 := by
                      have := (Prod.mk.injEq _ _ _ _).mp hh
                      exact this.2
                    subst this
                    exact List.mem_cons_self _ _
                  · exact absurd (hrest_pos _ hh) (by omega)
              · obtain ⟨s', rfl⟩ : ∃ s', s = s' + 1 := ⟨s - 1, by omega⟩
                obtain ⟨e', rfl⟩ : ∃ e', e = e' + 1 := ⟨e - 1, by omega⟩
                rw [isMaxRun_cons_shift] at h
                obtain ⟨hrun, himp⟩ := h
                have hs'pos : 1 ≤ s' := by
                  rcases Nat.eq_zero_or_pos s' with hz | h1
                  · exact absurd (himp hz) (by simp)
                  · exact h1
                have hmem := (ih _ _).mpr hrun
                rw [htr] at hmem
                rcases List.mem_cons.mp hmem with hh | hh
                · have : s' = 0 := by
                    have := (Prod.mk.injEq _ _ _ _).mp hh
                    omega
                  omega
                · apply List.mem_cons_of_mem
                  rw [mem_shiftRuns]
                  exact ⟨by omega, by omega, by simpa using hh⟩
          · have hgf : t.getD 0 false = false := by
              revert h0
              cases t.getD 0 false <;> simp
            rw [trueRuns_cons_true_nohead t hgf]
            constructor
            · intro h
              rcases List.mem_cons.mp h with h | h
              · cases h
                rw [isMaxRun_cons_zero_one]
                exact ⟨rfl, hgf⟩
              · rw [mem_shiftRuns] at h
                obtain ⟨hs, he, hmem⟩ := h
                obtain ⟨s', rfl⟩ : ∃ s', s = s' + 1 := ⟨s - 1, by omega⟩
                obtain ⟨e', rfl⟩ : ∃ e', e = e' + 1 := ⟨e - 1, by omega⟩
                simp only [Nat.add_sub_cancel] at hmem
                have hs'pos : 1 ≤ s' := trueRuns_pos t hgf _ hmem
                rw [isMaxRun_cons_shift]
                exact ⟨(ih _ _).mp hmem, fun hz => absurd hz (by omega)⟩
            · intro h
              have he : 1 ≤ e := hebound h
              rcases Nat.eq_zero_or_pos s with hz | hspos
              · subst hz
                obtain ⟨e', rfl⟩ : ∃ e', e = e' + 1 := ⟨e - 1, by omega⟩
                rcases Nat.eq_zero_or_pos e' with hez | hepos
                · subst hez
                  exact List.mem_cons_self _ _
                · rw [isMaxRun_cons_zero_succ true t e' hepos] at h
                  have := isMaxRun_start_true t 0 e' h.2
                  rw [this] at hgf
                  exact Bool.noConfusion hgf
              · obtain ⟨s', rfl⟩ : ∃ s', s = s' + 1 := ⟨s - 1, by omega⟩
                obtain ⟨e', rfl⟩ : ∃ e', e = e' + 1 := ⟨e - 1, by omega⟩
                rw [isMaxRun_cons_shift] at h
                obtain ⟨hrun, himp⟩ := h
                apply List.mem_cons_of_mem
                rw [mem_shiftRuns]
                exact ⟨by omega, by omega, by simpa using (ih _ _).mpr hrun⟩

/-- C8: `contiguous_regions` maps a boolean sequence to the ordered list
of half-open `[start, end)` pairs of its maximal True runs, including
runs touching either end; on `[T,F,F,T,T,F,T]` it returns exactly
`[[0,1],[3,5],[6,7]]`. -/
theorem C8_contiguous_regions_runs (l : List Bool) (hl : l ≠ []) :
    (∀ s e : ℕ, ((s, e) ∈ contiguous_regions l ↔ isMaxRun l s e)) ∧
    (contiguous_regions l).Pairwise (fun p q => p.2 < q.1) ∧
    contiguous_regions [true, false, false, true, true, false, true] =
      [(0, 1), (3, 5), (6, 7)] := by
  clear hl
  refine ⟨fun s e => ?_, ?_, by decide⟩
  · rw [contiguous_regions_eq_trueRuns]
    exact trueRuns_mem_iff l s e
  · rw [contiguous_regions_eq_trueRuns]
    exact trueRuns_pairwise l

theorem C8_contiguous_regions_runs_witness :
    ((0, 1) ∈ contiguous_regions [true, false] ↔ isMaxRun [true, false] 0 1) ∧
    contiguous_regions [true, false, false, true, true, false, true] =
      [(0, 1), (3, 5), (6, 7)] :=
  ⟨(C8_contiguous_regions_runs [true, false] (by decide)).1 0 1,
   (C8_contiguous_regions_runs [true, false] (by decide)).2.2⟩

theorem C10_first_gate_rule_witness :
    ((linear_despeckle 3 [some 1, none, some 2]).getD 1 none = none →
      (linear_despeckle 3 [some 1, none, some 2]).getD 0 none = none) ∧
    (linear_despeckle 3 [some 1, none, some 2]).drop 1 =
      (despeckle_window 3 [some 1, none, some 2]).drop 1 ∧
    (linear_despeckle 3 [some 1, none, some 2]).getD 0 none =
      (if (despeckle_window 3 [some 1, none, some 2]).getD 1 none = none then none
       else (despeckle_window 3 [some 1, none, some 2]).getD 0 none) :=
  C10_first_gate_rule 3 (Or.inl rfl) [some 1, none, some 2] (by norm_num)

/-- Insertion into a sorted list of rationals. -/
def insertSorted (x : ℚ) : List ℚ → List ℚ
  | [] => [x]
  | y :: t => if x ≤ y then x :: y :: t else y :: insertSorted x t

/-- Sort a list of rationals (insertion sort). -/
def sortQ (l : List ℚ) : List ℚ := l.foldr insertSorted []

/-- Median of a sorted nonempty list, numpy style: middle element for
odd length, mean of the two middle elements for even length. -/
def medianOfSorted (vs : List ℚ) : ℚ :=
  if vs.length % 2 = 1 then vs.getD (vs.length / 2) 0
  else (vs.getD (vs.length / 2 - 1) 0 + vs.getD (vs.length / 2) 0) / 2

/-- `scipy.stats.nanmedian`: the median of the non-NaN entries, NaN when
there are none. -/
def nanmedian (l : List V) : V :=
  let vs := sortQ (l.filterMap id)
  if vs.isEmpty then none else some (medianOfSorted vs)

/-- numpy slice assignment `d[a:b] = v` (out-of-range parts of the slice
are clamped, as in numpy). -/
def setRange (d : List V) (a b : ℕ) (v : V) : List V :=
  d.mapIdx (fun r x => if a ≤ r ∧ r < b then v else x)

/-- One iteration of the gap loop of `fill_phidp` (dp.py lines 488-507),
operating on the current (partially filled) beam `d`:
a gap touching the left edge is filled with the nanmedian of the
`margin` gates right of it; a gap touching the right edge with the
nanmedian of the `margin` gates left of it (`left` clamped at 0); an
interior gap with `np.mean` of the right-margin and left-margin
nanmedians (`right` clamped at the length). -/
def fillGap (margin : ℕ) (d : List V) (g : ℕ × ℕ) : List V :=
  let left := g.1 - margin
  let right := min (g.2 + margin) d.length
  if g.1 = 0 then setRange d 0 g.2 (nanmedian (npSlice d g.2 (g.2 + margin)))
  else if g.2 = d.length then setRange d g.1 d.length (nanmedian (npSlice d left g.1))
  else setRange d g.1 g.2
    (vavg (nanmedian (npSlice d g.2 right)) (nanmedian (npSlice d left g.1)))

/-- `fill_phidp` (dp.py lines 445-508) on one beam: an all-NaN beam is
replaced by zeros; otherwise the maximal NaN runs (detected once, up
front, from the original NaN mask) are filled left to right. -/
def fill_phidp (margin : ℕ) (data : List V) : List V :=
  if data.all isnan then List.replicate data.length (some 0)
  else (contiguous_regions (data.map isnan)).foldl (fillGap margin) data

/-- C7: a beam in which every sample is invalid (NaN) is replaced by an
all-zero beam of the same length; this is an ordinary return, not an
error (the gap loop is never entered). -/
theorem C7_fill_phidp_all_invalid (margin : ℕ) (data : List V)
    (h : ∀ x ∈ data, x = none) :
    fill_phidp margin data = List.replicate data.length (some 0) := by
  unfold fill_phidp
  rw [if_pos]
  rw [List.all_eq_true]
  intro x hx
  rw [h x hx]
  rfl

theorem C7_fill_phidp_all_invalid_witness :
    fill_phidp 3 [none, none] = List.replicate 2 (some 0) :=
  C7_fill_phidp_all_invalid 3 [none, none] (by decide)

theorem setRange_length (d : List V) (a b : ℕ) (v : V) :
    (setRange d a b v).length = d.length := by
  unfold setRange
  exact List.length_mapIdx

theorem setRange_getD (d : List V) (a b : ℕ) (v : V) (r : ℕ) :
    (setRange d a b v).getD r none =
      if a ≤ r ∧ r < b ∧ r < d.length then v else d.getD r none := by
  unfold setRange
  rw [List.getD_eq_getElem?_getD, List.getElem?_mapIdx]
  by_cases h3 : r < d.length
  · rw [List.getElem?_eq_getElem h3]
    simp only [Option.map_some']
    by_cases hab : a ≤ r ∧ r < b
    · rw [if_pos hab, if_pos ⟨hab.1, hab.2, h3⟩]
      rfl
    · rw [if_neg hab, if_neg (by tauto), List.getD_eq_getElem?_getD,
        List.getElem?_eq_getElem h3]
  · rw [List.getElem?_eq_none (by omega)]
    simp only [Option.map_none']
    rw [if_neg (by tauto), List.getD_eq_getElem?_getD, List.getElem?_eq_none (by omega)]

theorem fillGap_interior (m : ℕ) (d : List V) (g0 g1 : ℕ) (h0 : ¬ g0 = 0)
    (h1 : ¬ g1 = d.length) :
    fillGap m d (g0, g1) = setRange d g0 g1
      (vavg (nanmedian (npSlice d g1 (min (g1 + m) d.length)))
        (nanmedian (npSlice d (g0 - m) g0))) := by
  unfold fillGap
  rw [if_neg h0, if_neg h1]

theorem fillGap_length (m : ℕ) (d : List V) (g : ℕ × ℕ) :
    (fillGap m d g).length = d.length := by
  unfold fillGap
  split_ifs <;> rw [setRange_length]

theorem fillGap_getD_frame (m : ℕ) (d : List V) (g : ℕ × ℕ) (r : ℕ)
    (h : r < g.1 ∨ g.2 ≤ r) : (fillGap m d g).getD r none = d.getD r none := by
  unfold fillGap
  split_ifs with hA hB
  · rw [setRange_getD, if_neg (by omega)]
  · rw [setRange_getD, if_neg (by omega)]
  · rw [setRange_getD, if_neg (by omega)]

theorem foldl_fillGap_length (m : ℕ) (gs : List (ℕ × ℕ)) (d : List V) :
    (gs.foldl (fillGap m) d).length = d.length := by
  induction gs generalizing d with
  | nil => rfl
  | cons g t ih => rw [List.foldl_cons, ih, fillGap_length]

theorem foldl_fillGap_frame (m : ℕ) (gs : List (ℕ × ℕ)) (d : List V) (r : ℕ)
    (h : ∀ g ∈ gs, r < g.1 ∨ g.2 ≤ r) :
    (gs.foldl (fillGap m) d).getD r none = d.getD r none := by
  induction gs generalizing d with
  | nil => rfl
  | cons g t ih =>
      rw [List.foldl_cons, ih _ (fun q hq => h q (List.mem_cons_of_mem g hq)),
        fillGap_getD_frame m d g r (h g (List.mem_cons_self g t))]

theorem length_insertSorted (x : ℚ) : ∀ l : List ℚ,
    (insertSorted x l).length = l.length + 1
  | [] => rfl
  | y :: t => by
      unfold insertSorted
      split_ifs
      · rfl
      · rw [List.length_cons, length_insertSorted x t, List.length_cons]

theorem length_sortQ (l : List ℚ) : (sortQ l).length = l.length := by
  induction l with
  | nil => rfl
  | cons x t ih =>
      unfold sortQ at ih ⊢
      rw [List.foldr_cons, length_insertSorted, ih, List.length_cons]

theorem nanmedian_some (l : List V) (h : ∃ x ∈ l, x ≠ none) :
    ∃ q : ℚ, nanmedian l = some q := by
  unfold nanmedian
  obtain ⟨x, hx, hxn⟩ := h
  obtain ⟨q, rfl⟩ := Option.ne_none_iff_exists'.mp hxn
  have hq : q ∈ l.filterMap id := List.mem_filterMap.mpr ⟨some q, hx, rfl⟩
  have hne : l.filterMap id ≠ [] := by
    intro hc
    rw [hc] at hq
    exact absurd hq (List.not_mem_nil q)
  have hslen : (sortQ (l.filterMap id)).length ≠ 0 := by
    rw [length_sortQ]
    intro hc
    exact hne (List.length_eq_zero.mp hc)
  rw [if_neg (by
    intro hc
    exact hslen (by rw [List.isEmpty_iff.mp hc]; rfl))]
  exact ⟨_, rfl⟩

theorem mem_npSlice (d : List V) (a b r : ℕ) (h1 : a ≤ r) (h2 : r < b)
    (h3 : r < d.length) : d.getD r none ∈ npSlice d a b := by
  unfold npSlice
  have hsl : ((d.drop a).take (b - a))[r - a]? = some (d.getD r none) := by
    rw [List.getElem?_take, if_pos (by omega), List.getElem?_drop,
      show a + (r - a) = r by omega, List.getD_eq_getElem?_getD,
      List.getElem?_eq_getElem h3]
    rfl
  exact List.getElem?_mem hsl

theorem takeWhile_ne_append (g : ℕ × ℕ) : ∀ (pre post : List (ℕ × ℕ)),
    (∀ p ∈ pre, p ≠ g) →
    (pre ++ g :: post).takeWhile (fun p => p != g) = pre
  | [], post, _ => by
      rw [List.nil_append, List.takeWhile_cons, if_neg (by simp)]
  | p :: t, post, h => by
      rw [List.cons_append, List.takeWhile_cons,
        if_pos (by simp [h p (List.mem_cons_self p t)]),
        takeWhile_ne_append g t post (fun q hq => h q (List.mem_cons_of_mem p hq))]

/-- The original value of a gate adjacent to a maximal NaN run is valid. -/
theorem adjacent_valid (data : List V) (r : ℕ) (hr : r < data.length)
    (hmask : (data.map isnan).getD r false = false) :
    data.getD r none ≠ none := by
  rw [List.getD_eq_getElem?_getD, List.getElem?_map, List.getElem?_eq_getElem hr] at hmask
  simp only [Option.map_some', Option.getD_some] at hmask
  rw [List.getD_eq_getElem?_getD, List.getElem?_eq_getElem hr]
  intro hc
  simp only [Option.getD_some] at hc
  rw [hc] at hmask
  exact Bool.noConfusion hmask

/-- C6: for a beam with at least one valid sample, every interior
maximal NaN run `[g0, g1)` is filled with one constant value: `np.mean`
of the two one-sided margin nanmedians (margin gates `[g0-margin, g0)`
and `[g1, min (g1+margin) n)`), taken on the beam as it stands when the
gap is processed (gaps are filled left to right); the filled region is
therefore flat. -/
theorem C6_fill_phidp_interior_gap (margin : ℕ) (data : List V) (g0 g1 : ℕ)
    (hm : 0 < margin)
    (hsome : ∃ x ∈ data, x ≠ none)
    (hrun : isMaxRun (data.map isnan) g0 g1)
    (h0 : 0 < g0) (h1 : g1 < data.length) :
    ∃ mL mR : ℚ,
      nanmedian (npSlice (((contiguous_regions (data.map isnan)).takeWhile
          (fun p => p != (g0, g1))).foldl (fillGap margin) data) (g0 - margin) g0) =
        some mL ∧
      nanmedian (npSlice (((contiguous_regions (data.map isnan)).takeWhile
          (fun p => p != (g0, g1))).foldl (fillGap margin) data) g1
        (min (g1 + margin) data.length)) = some mR ∧
      ∀ r, g0 ≤ r → r < g1 →
        (fill_phidp margin data).getD r none = some ((mR + mL) / 2) := by
  have hlenmap : (data.map isnan).length = data.length := List.length_map data isnan
  have hmem : (g0, g1) ∈ contiguous_regions (data.map isnan) := by
    rw [contiguous_regions_eq_trueRuns]
    exact (trueRuns_mem_iff _ _ _).mpr hrun
  have hpw : (contiguous_regions (data.map isnan)).Pairwise (fun p q => p.2 < q.1) := by
    rw [contiguous_regions_eq_trueRuns]
    exact trueRuns_pairwise _
  obtain ⟨pre, post, hsplit⟩ := List.append_of_mem hmem
  have hpw2 := hsplit ▸ hpw
  rw [List.pairwise_append] at hpw2
  obtain ⟨hpwpre, hpwcons, hcross⟩ := hpw2
  have hpre_lt : ∀ p ∈ pre, p.2 < g0 := fun p hp =>
    hcross p hp (g0, g1) (List.mem_cons_self _ _)
  have hpost_gt : ∀ q ∈ post, g1 < q.1 := (List.pairwise_cons.mp hpwcons).1
  have hbounds := (isMaxRun_def _ _ _).mp hrun
  have hg01 : g0 < g1 := hbounds.1
  have htw : (contiguous_regions (data.map isnan)).takeWhile (fun p => p != (g0, g1)) =
      pre := by
    rw [hsplit]
    exact takeWhile_ne_append (g0, g1) pre post
      (fun p hp => by
        have := hpre_lt p hp
        intro hc
        rw [hc] at this
        simp only [] at this
        omega)
  rw [htw]
  have hgaps_valid_left : (data.map isnan).getD (g0 - 1) false = false := by
    rcases hbounds.2.2.2.1 with hz | hv
    · omega
    · exact hv
  have hgaps_valid_right : (data.map isnan).getD g1 false = false := by
    rcases hbounds.2.2.2.2 with hz | hv
    · rw [hlenmap] at hz
      omega
    · exact hv
  have hdB_len : (pre.foldl (fillGap margin) data).length = data.length :=
    foldl_fillGap_length margin pre data
  have hdB_left : (pre.foldl (fillGap margin) data).getD (g0 - 1) none =
      data.getD (g0 - 1) none :=
    foldl_fillGap_frame margin pre data (g0 - 1)
      (fun g hg => Or.inr (by have := hpre_lt g hg; omega))
  have hdB_right : (pre.foldl (fillGap margin) data).getD g1 none =
      data.getD g1 none :=
    foldl_fillGap_frame margin pre data g1
      (fun g hg => Or.inr (by have := hpre_lt g hg; omega))
  have hvalid_left : (pre.foldl (fillGap margin) data).getD (g0 - 1) none ≠ none := by
    rw [hdB_left]
    exact adjacent_valid data (g0 - 1) (by omega) hgaps_valid_left
  have hvalid_right : (pre.foldl (fillGap margin) data).getD g1 none ≠ none := by
    rw [hdB_right]
    exact adjacent_valid data g1 (by omega) hgaps_valid_right
  obtain ⟨mL, hmL⟩ := nanmedian_some
    (npSlice (pre.foldl (fillGap margin) data) (g0 - margin) g0)
    ⟨_, mem_npSlice _ (g0 - margin) g0 (g0 - 1) (by omega) (by omega)
      (by rw [hdB_len]; omega), hvalid_left⟩
  obtain ⟨mR, hmR⟩ := nanmedian_some
    (npSlice (pre.foldl (fillGap margin) data) g1 (min (g1 + margin) data.length))
    ⟨_, mem_npSlice _ g1 (min (g1 + margin) data.length) g1 le_rfl (by omega)
      (by rw [hdB_len]; omega), hvalid_right⟩
  refine ⟨mL, mR, hmL, hmR, fun r hr1 hr2 => ?_⟩
  have hnotall : data.all isnan = false := by
    obtain ⟨x, hx, hxn⟩ := hsome
    by_contra hc
    have : data.all isnan = true := by
      revert hc
      cases data.all isnan <;> simp
    rw [List.all_eq_true] at this
    have := this x hx
    unfold isnan at this
    rw [Option.isNone_iff_eq_none] at this
    exact hxn this
  unfold fill_phidp
  rw [if_neg (by rw [hnotall]; exact Bool.noConfusion), hsplit, List.foldl_append,
    List.foldl_cons]
  rw [foldl_fillGap_frame margin post _ r
    (fun q hq => Or.inl (by have := hpost_gt q hq; omega))]
  rw [fillGap_interior margin _ g0 g1 (by omega) (by rw [hdB_len]; omega), hdB_len,
    hmR, hmL, setRange_getD, if_pos ⟨hr1, hr2, by rw [hdB_len]; omega⟩, vavg_some]

theorem C6_fill_phidp_interior_gap_witness :
    ∃ mL mR : ℚ,
      nanmedian (npSlice (((contiguous_regions ([some 2, none, some 4].map isnan)).takeWhile
          (fun p => p != (1, 2))).foldl (fillGap 3) [some 2, none, some 4]) (1 - 3) 1) =
        some mL ∧
      nanmedian (npSlice (((contiguous_regions ([some 2, none, some 4].map isnan)).takeWhile
          (fun p => p != (1, 2))).foldl (fillGap 3) [some 2, none, some 4]) 2
        (min (2 + 3) [some 2, none, some 4].length)) = some mR ∧
      ∀ r, 1 ≤ r → r < 2 →
        (fill_phidp 3 [some 2, none, some 4]).getD r none = some ((mR + mL) / 2) :=
  C6_fill_phidp_interior_gap 3 [some 2, none, some 4] 1 2 (by norm_num)
    ⟨some 2, by decide, by decide⟩ (by decide) (by norm_num) (by norm_num)

/-- Population variance of a window, used in place of `np.std`: the
source only ever compares `np.std(window) < 5`, and since
`np.std = √variance` with both sides nonnegative this is equivalent to
`variance < 5² = 25`, which is exact over `ℚ`.  A NaN anywhere in the
window makes the result NaN, as in numpy. -/
def winVar (w : List V) : V :=
  if w.isEmpty || w.any isnan then none
  else
    let vs := w.filterMap id
    let mu := vs.sum / vs.length
    some ((vs.map (fun x => (x - mu) ^ 2)).sum / vs.length)

/-- `stdarr` of `unfold_phi_naive` (dp.py lines 250-252), stored as the
squared dispersion: the window statistic of `phidp[r:r+9]` for
`r < rs - 9`, and the `np.zeros` default at the trailing gates. -/
def stdarr (phidp : List V) : List V :=
  (List.range phidp.length).map
    (fun r => if r < phidp.length - 9 then winVar (npSlice phidp r (r + 9)) else some 0)

/-- The source's `stdarr < 5` test, on the squared dispersion (false on
NaN, as in numpy). -/
def stdBelowNoise (s : V) : Bool := vltB s (some 25)

/-- The source's `rho > 0.9` test (false on NaN); `0.9` is the rational
`mkRat 9 10` (written this way so that the kernel can evaluate it). -/
def rhoAboveConf (x : V) : Bool := vltB (some (mkRat 9 10)) x

/-- The onset condition of dp.py line 262: the count of dispersion
gates of `[j, j+width)` below the noise threshold equals `width`, and
the count of gates of the hardcoded window `[j, j+5)` with `rho > 0.9`
equals `width`. -/
def onsetCond (st rho : List V) (width j : ℕ) : Bool :=
  (((npSlice st j (j + width)).filter stdBelowNoise).length == width) &&
  (((npSlice rho j (j + 5)).filter rhoAboveConf).length == width)

/-- The onset search of dp.py lines 261-263: python's
`for j in range(0, rs-width): if cond(j): break` leaves `j` at the
first index satisfying the condition, or at `rs - width - 1` when none
does (the final value of the exhausted loop variable).  The loop body
must run at least once, so callers need `width < rs` (otherwise the
source raises `NameError` at line 265). -/
def onset_j (st rho : List V) (rs width : ℕ) : ℕ :=
  ((List.range (rs - width)).find? (onsetCond st rho width)).getD (rs - width - 1)

/-- The reference phase of dp.py line 265: `np.mean(phidp[j:j+width])`. -/
def onset_ref (phidp : List V) (j width : ℕ) : V := vmean (npSlice phidp j (j + width))

/-- The onset condition as the spec words it (claim C3): dispersion
below the noise threshold for all `w` gates of the window `[j, j+w)`
AND quality above the confidence threshold for all `w` gates of that
same window. -/
def onsetCondOfSpec (st rho : List V) (width j : ℕ) : Bool :=
  ((npSlice st j (j + width)).all stdBelowNoise) &&
  ((npSlice rho j (j + width)).all rhoAboveConf)

/-- Input of the C3 counterexample: a constant beam (every dispersion
gate passes) and a quality profile that is high on the first five gates
and zero afterwards. -/
def onsetPhidpC : List V := List.replicate 9 (some 10)

def onsetRhoC : List V :=
  [some 1, some 1, some 1, some 1, some 1, some 0, some 0, some 0, some 0]

/-- C3 fails on the code: the quality window of the source is the
hardcoded `rho[j:j+5]` compared against a count of `width`, not "all
`w` gates of the window `[j, j+w)`".  With `width = 3`, the spec's
condition holds at `j = 0` (all three gates of `[0,3)` pass both
tests), yet the code rejects `j = 0` and `j = 1` (five, then four of
the five hardcoded gates pass, and neither count equals 3) and selects
`j = 2`. -/
theorem C3_counterexample :
    onsetCondOfSpec (stdarr onsetPhidpC) onsetRhoC 3 0 = true ∧
    onsetCond (stdarr onsetPhidpC) onsetRhoC 3 0 = false ∧
    onset_j (stdarr onsetPhidpC) onsetRhoC 9 3 = 2 := by decide

theorem find?_range_first (p : ℕ → Bool) (m j0 : ℕ) (hj0 : j0 < m)
    (hp : p j0 = true) :
    ∃ j, (List.range m).find? p = some j ∧ j ≤ j0 ∧ p j = true := by
  induction m with
  | zero => omega
  | succ m ih =>
      rw [List.range_succ, List.find?_append]
      by_cases hj : j0 < m
      · obtain ⟨j, hfind, hle, hpj⟩ := ih hj
        rw [hfind]
        exact ⟨j, rfl, hle, hpj⟩
      · have hjm : j0 = m := by omega
        subst hjm
        cases hfind : (List.range j0).find? p with
        | none =>
            rw [Option.none_or, List.find?_cons_of_pos [] hp]
            exact ⟨j0, rfl, le_rfl, hp⟩
        | some j =>
            have hpj := List.find?_some hfind
            have hmem := List.mem_of_find?_eq_some hfind
            rw [List.mem_range] at hmem
            exact ⟨j, rfl, by omega, hpj⟩

/-- C3 amended: the onset search of `unfold_phi_naive` selects the
first index `j` of `[0, rs - width)` at which the source condition
holds — all `width` dispersion gates of `[j, j+width)` below the noise
threshold AND the count of gates of the hardcoded five-gate window
`[j, j+5)` with `rho` above the confidence threshold equal to `width` —
and the running reference is then the mean of `phidp` over
`[j, j+width)`. -/
theorem C3_onset_first_code_index (phidp rho : List V) (width j0 : ℕ)
    (hw : width < phidp.length)
    (hj0 : j0 < phidp.length - width)
    (hc : onsetCond (stdarr phidp) rho width j0 = true) :
    onset_j (stdarr phidp) rho phidp.length width ≤ j0 ∧
    onsetCond (stdarr phidp) rho width
      (onset_j (stdarr phidp) rho phidp.length width) = true ∧
    onset_ref phidp (onset_j (stdarr phidp) rho phidp.length width) width =
      vmean (npSlice phidp (onset_j (stdarr phidp) rho phidp.length width)
        (onset_j (stdarr phidp) rho phidp.length width + width)) := by
  clear hw
  obtain ⟨j, hfind, hle, hpj⟩ :=
    find?_range_first (onsetCond (stdarr phidp) rho width) (phidp.length - width) j0 hj0 hc
  unfold onset_j
  rw [hfind]
  simp only [Option.getD_some]
  exact ⟨hle, hpj, rfl⟩

theorem C3_onset_first_code_index_witness :
    onset_j (stdarr onsetPhidpC) onsetRhoC onsetPhidpC.length 3 ≤ 2 ∧
    onsetCond (stdarr onsetPhidpC) onsetRhoC 3
      (onset_j (stdarr onsetPhidpC) onsetRhoC onsetPhidpC.length 3) = true ∧
    onset_ref onsetPhidpC (onset_j (stdarr onsetPhidpC) onsetRhoC onsetPhidpC.length 3) 3 =
      vmean (npSlice onsetPhidpC (onset_j (stdarr onsetPhidpC) onsetRhoC onsetPhidpC.length 3)
        (onset_j (stdarr onsetPhidpC) onsetRhoC onsetPhidpC.length 3 + 3)) :=
  C3_onset_first_code_index onsetPhidpC onsetRhoC 3 2 (by decide) (by decide) (by decide)

/-- numpy-style sort of samples: NaN sorts after every number.  scipy's
`medfilt` sorts each window with a C selection routine whose NaN
placement is an implementation detail; we fix the numpy convention.  No
claim depends on this choice. -/
def sortV (l : List V) : List V :=
  (sortQ (l.filterMap id)).map some ++ l.filter isnan

/-- `scipy.signal.medfilt` with kernel size `N` (used by
`medfilt_along_axis`, dp.py lines 291-297): each output gate is the
middle element of the sorted, zero-padded window of `N` gates centred
on it. -/
def medfilt (N : ℕ) (l : List V) : List V :=
  (List.range l.length).map (fun r =>
    (sortV ((List.range N).map (fun t =>
      if N / 2 ≤ r + t ∧ r + t - N / 2 < l.length then l.getD (r + t - N / 2) none
      else some 0))).getD (N / 2) none)

/-- `medfilt_along_axis` on the range axis of one beam (dp.py lines
291-297): the kernel is 1 on every other axis. -/
def medfilt_along_axis (N : ℕ) (x : List V) : List V := medfilt N x

/-- `gradient_along_axis` (dp.py lines 300-310): the roll/append/insert
construction of the source yields centred differences with one-sided
differences at the two ends.  The source indexes `x[...,1]`
unconditionally and raises for fewer than 2 gates. -/
def gradient_along_axis (x : List V) : List V :=
  (List.range x.length).map (fun r =>
    if r = 0 then vsub (x.getD 1 none) (x.getD 0 none)
    else if r = x.length - 1 then vsub (x.getD r none) (x.getD (r - 1) none)
    else vdiv (vsub (x.getD (r + 1) none) (x.getD (r - 1) none)) (some 2))

/-- `gradient_from_smoothed` (dp.py lines 313-316). -/
def gradient_from_smoothed (x : List V) : List V := gradient_along_axis (medfilt 5 x)

/-- One tracking step of `unfold_phi_naive` at gate `k` (dp.py lines
266-274), carrying the running reference and the partially corrected
beam.  The source's truthiness test `np.sum(stdarr[k-width:k] < 5)` is
"at least one window gate below the noise threshold". -/
def unfold_track_step (width : ℕ) (st gradphi : List V)
    (state : V × List V) (k : ℕ) : V × List V :=
  let ref := state.1
  let phi := state.2
  if ((npSlice st (k - width) k).filter stdBelowNoise).length ≠ 0 ∧
      vltB (some (-5)) (gradphi.getD k none) = true ∧
      vltB (gradphi.getD k none) (some 20) = true then
    let ref' := vadd ref (vmul (gradphi.getD k none) (some (mkRat 1 2)))
    if vltB (vsub (phi.getD k none) ref') (some (-80)) = true ∧
        vltB (phi.getD k none) (some 0) = true then
      (ref', phi.set k (vadd (phi.getD k none) (some 360)))
    else (ref', phi)
  else
    if vltB (vsub (phi.getD k none) ref) (some (-80)) = true ∧
        vltB (phi.getD k none) (some 0) = true then
      (ref, phi.set k (vadd (phi.getD k none) (some 360)))
    else (ref, phi)

/-- `unfold_phi_naive` on one beam (dp.py lines 215-275): all-zero
beams are skipped untouched; otherwise find the onset `j`, set the
reference to the mean of the onset window, and walk gates
`j+width .. rs-1` carrying the reference.  `stdarr` and `gradphi` are
precomputed from the input beam.  The shape assertion of line 239 is
modelled at the pipeline level (`process_raw_phidp`). -/
def unfold_phi_naive_beam (width : ℕ) (phidp rho : List V) : List V :=
  if phidp.all (fun x => x == some 0) then phidp
  else
    let st := stdarr phidp
    let gradphi := gradient_from_smoothed phidp
    let j := onset_j st rho phidp.length width
    let ref := onset_ref phidp j width
    ((List.range' (j + width) (phidp.length - (j + width))).foldl
      (unfold_track_step width st gradphi) (ref, phidp)).2

/-- `process_raw_phidp` (dp.py lines 82-124) on one beam with
`copy=False`, together with the caller-visible state of the input
array.  Despeckle and gap filling write the caller's array in place;
the shape assertion of `unfold_phi_naive` (line 239) runs before any
unfolding work, so an `AssertionError` (modelled as a `none` result)
escapes with the caller's array already despeckled and filled.  On
success the unfold also works in place and the median filter allocates
the returned array.  First component: the returned profile (`none` =
the assertion fired); second: the content of the caller's `phidp`
array when the call ends. -/
def process_raw_phidp (N_despeckle N_fillmargin N_unfold N_filter : ℕ)
    (phidp rho : List V) : Option (List V) × List V :=
  let d := linear_despeckle N_despeckle phidp
  let f := fill_phidp N_fillmargin d
  if rho.length = f.length then
    let u := unfold_phi_naive_beam N_unfold f rho
    (some (medfilt_along_axis N_filter u), u)
  else (none, f)

/-- C4 fails on the code: with `copy=False` and mismatched shapes the
assertion does fire (no result is produced), but only inside the
unfold stage — despeckling and gap filling have already transformed
the caller's array in place.  On `[1, NaN, NaN, 1, 1]` with a
4-element `rho`, the error escapes with the array holding
all ones (gate 0 was blanked by the despeckle first-gate rule and the
left-edge gap then filled with the margin median 1), not the original
data. -/
theorem C4_counterexample :
    (process_raw_phidp 3 3 5 5 [some 1, none, none, some 1, some 1, some 1]
      [some 1, some 1, some 1, some 1]).1 = none ∧
    (process_raw_phidp 3 3 5 5 [some 1, none, none, some 1, some 1, some 1]
      [some 1, some 1, some 1, some 1]).2 ≠
      [some 1, none, none, some 1, some 1, some 1] := by
  decide

theorem fill_phidp_length (m : ℕ) (d : List V) :
    (fill_phidp m d).length = d.length := by
  unfold fill_phidp
  split_ifs
  · exact List.length_replicate ..
  · exact foldl_fillGap_length m _ d

/-- C4 amended: whenever `rho`'s shape differs from `phidp`'s, the
pipeline raises the shape-mismatch error (at the unfold stage) and
returns no result, but the input array is not left unmodified: with
`copy=False` it holds `fill_phidp (linear_despeckle phidp)` — the
despeckle and gap-fill stages have already run in place. -/
theorem C4_shape_mismatch_after_preprocessing (Nd Nm Nu Nf : ℕ) (phidp rho : List V)
    (hmis : rho.length ≠ phidp.length) :
    process_raw_phidp Nd Nm Nu Nf phidp rho =
      (none, fill_phidp Nm (linear_despeckle Nd phidp)) := by
  unfold process_raw_phidp
  rw [if_neg]
  intro hc
  apply hmis
  rw [hc, fill_phidp_length, linear_despeckle_length]

theorem C4_shape_mismatch_after_preprocessing_witness :
    process_raw_phidp 3 3 5 5 [some 1, some 2] [some 1] =
      (none, fill_phidp 3 (linear_despeckle 3 [some 1, some 2])) :=
  C4_shape_mismatch_after_preprocessing 3 3 5 5 [some 1, some 2] [some 1] (by decide)

/-- The wraparound predecessor index: `np.roll(a, 1)[i] = a[(i-1) mod m]`. -/
def finPrev {m : ℕ} (i : Fin m) : Fin m := ⟨(i + (m - 1)) % m, Nat.mod_lt _ i.pos⟩

/-- The wraparound successor index: `np.roll(a, -1)[i] = a[(i+1) mod m]`. -/
def finNext {m : ℕ} (i : Fin m) : Fin m := ⟨(i + 1) % m, Nat.mod_lt _ i.pos⟩

/-- The 8 grid neighbors gathered by `texture` (dp.py lines 563-572):
`np.roll` along the last two axes, whose wraparound is modular index
arithmetic. -/
def textureNeighbors {m n : ℕ} (data : Fin m → Fin n → V) (i : Fin m) (j : Fin n) :
    List V :=
  [data (finPrev i) j, data i (finPrev j), data (finNext i) j, data i (finNext j),
   data (finPrev i) (finPrev j), data (finPrev i) (finNext j),
   data (finNext i) (finNext j), data (finNext i) (finPrev j)]

/-- `num` of `texture` (dp.py lines 579-585): squared differences to
the neighbors, with NaN differences converted to zero. -/
def textureNum {m n : ℕ} (data : Fin m → Fin n → V) (i : Fin m) (j : Fin n) : ℚ :=
  ((textureNeighbors data i j).map (fun x =>
    match data i j, x with
    | some c, some v => (c - v) ^ 2
    | _, _ => 0)).sum

/-- `xa_valid_count` of `texture` (dp.py lines 575-577). -/
def textureCount {m n : ℕ} (data : Fin m → Fin n → V) (i : Fin m) (j : Fin n) : ℕ :=
  ((textureNeighbors data i j).filter (fun x => !(isnan x))).length

/-- The radicand of `texture`: `num / xa_valid_count`, with a NaN
center forced NaN (dp.py line 587) and a zero valid-neighbor count
yielding NaN (numpy's `0/0`; `num` is zero whenever the count is). -/
def textureSq {m n : ℕ} (data : Fin m → Fin n → V) (i : Fin m) (j : Fin n) : V :=
  if (data i j).isNone then none
  else if textureCount data i j = 0 then none
  else some (textureNum data i j / textureCount data i j)

/-- `texture` (dp.py lines 549-591): `np.sqrt(num / xa_valid_count)`.
The square root is `Real.sqrt` of the exact rational radicand
(`Real.sqrt` has no executable code, so only this final wrapper is
noncomputable; `Real.sqrt` of NaN is NaN, modelled by `Option.map`). -/
noncomputable def texture {m n : ℕ} (data : Fin m → Fin n → V) (i : Fin m) (j : Fin n) :
    Option ℝ :=
  (textureSq data i j).map (fun q => Real.sqrt (q : ℚ))

/-- C9: the texture of a NaN-free constant field is exactly zero at
every position, and the texture at any position whose center sample is
NaN is NaN regardless of the neighbor values. -/
theorem C9_texture_constant_zero_nan_center :
    (∀ (m n : ℕ) (c : ℚ) (data : Fin m → Fin n → V),
      (∀ i j, data i j = some c) → ∀ (i : Fin m) (j : Fin n), texture data i j = some 0) ∧
    (∀ (m n : ℕ) (data : Fin m → Fin n → V) (i : Fin m) (j : Fin n),
      data i j = none → texture data i j = none) := by
  constructor
  · intro m n c data hconst i j
    have hnb : textureNeighbors data i j = List.replicate 8 (some c) := by
      unfold textureNeighbors
      rw [hconst, hconst, hconst, hconst, hconst, hconst, hconst, hconst]
      rfl
    have hcount : textureCount data i j = 8 := by
      unfold textureCount
      rw [hnb]
      rfl
    have hnum : textureNum data i j = 0 := by
      unfold textureNum
      rw [hnb, hconst i j]
      norm_num
    unfold texture textureSq
    rw [hconst i j, hcount, hnum]
    norm_num [Real.sqrt_zero]
  · intro m n data i j h
    unfold texture textureSq
    rw [h]
    rfl

theorem C9_texture_constant_zero_nan_center_witness :
    texture (fun _ _ => some 5 : Fin 1 → Fin 1 → V) 0 0 = some 0 ∧
    texture (fun _ _ => none : Fin 2 → Fin 2 → V) 0 0 = none :=
  ⟨C9_texture_constant_zero_nan_center.1 1 1 5 (fun _ _ => some 5) (fun _ _ => rfl) 0 0,
   C9_texture_constant_zero_nan_center.2 2 2 (fun _ _ => none) 0 0 rfl⟩

end DP
